import Mathlib

/-!
Shallow embedding of the Nina entity-component store, covering the
type-erased column storage (`src/storage/erased_collections.rs`), the
entity/component table (`src/world/entities.rs`) and the bitmask query
(`src/world/query/query.rs`).

Modelling conventions:
- `usize` / `u128` values are `Nat`, with the machine bounds
  (`USIZE_MAX`, `ISIZE_MAX`, 128-bit masks) made explicit where the code
  depends on them.
- Rust panics (`assert!`, `unwrap`, `Vec` index panics, overflow checks)
  are `Except` errors carrying a constructor per distinct panic source.
- A slot's raw bytes are a `List Nat`; the untyped heap allocation of a
  column is a function `Nat → List Nat` from slot index to its bytes.
- Calls to the stored destructor (`TypeInfo::drop`) are recorded in a
  ghost `dropLog` field, which is the observable for "the destructor was
  (never) invoked on this slot".
-/

namespace Nina

/-- `usize::MAX` on a 64-bit target. -/
def USIZE_MAX : Nat := 2 ^ 64 - 1

/-- `isize::MAX` on a 64-bit target. -/
def ISIZE_MAX : Nat := 2 ^ 63 - 1

/-- Raw bytes of one stored value. -/
abbrev Bytes := List Nat

/-- Model of `TypeInfo` (`src/storage/type_info.rs`): process-unique type
identity plus the memory layout.  The destructor is not carried as data;
its invocations are logged in `ErasedVec.dropLog`.  Equality and hashing
in the source compare `id` only. -/
structure TypeInfo where
  id : Nat
  size : Nat
  align : Nat
deriving DecidableEq, Repr

/-- `TypeInfo::array` (`type_info.rs`): layout (its byte size) for `n`
contiguous elements; errors when the size is nonzero and `n` exceeds the
`(isize::MAX - (align - 1)) / element_size` guard. -/
def TypeInfo.array (ty : TypeInfo) (n : Nat) : Except Unit Nat :=
  if ty.size ≠ 0 ∧ n > (ISIZE_MAX - (ty.align - 1)) / ty.size then .error ()
  else .ok (ty.size * n)

/-- The panic/error sources of `ErasedVec`/`RawErasedVec`
(`src/errors.rs::ErasedVecErrors` plus the standard-library panics the
code can hit). -/
inductive ErasedVecError
  /-- `ErasedVecErrors::DoesNotContainType` -/
  | doesNotContainType
  /-- `ErasedVecErrors::IncorrectTypeInsertion` -/
  | incorrectTypeInsertion
  /-- `ErasedVecErrors::IndexOutOfBounds { len, index }` -/
  | indexOutOfBounds (len index : Nat)
  /-- the `assert!(new_layout.size() <= isize::MAX …)` failure
  (`ErasedVecErrors::ErasedVecAllocError`) -/
  | allocError
  /-- the `assert!(self.ty.size() != 0 …)` failure
  (`ErasedVecErrors::ErasedVecCapacityOverflow`) -/
  | capacityOverflow
  /-- `.unwrap()` panic on a `TypeInfo::array` layout error -/
  | layoutUnwrapPanic
  /-- debug-mode `2 * self.cap` usize multiplication overflow panic -/
  | mulOverflowPanic
  /-- standard `Vec` index panic (e.g. `self.filled[index] = …` out of
  bounds) -/
  | vecIndexPanic
deriving DecidableEq, Repr

/-- Model of `RawErasedVec` (`erased_collections.rs`): the untyped
allocation is summarised by its element type and capacity. -/
structure RawErasedVec where
  ty : TypeInfo
  cap : Nat
deriving DecidableEq, Repr

/-- `RawErasedVec::new::<T>()`: zero-size element types start with
capacity `usize::MAX` (never allocate), others with capacity 0. -/
def RawErasedVec.new (ty : TypeInfo) : RawErasedVec :=
  { ty, cap := if ty.size = 0 then USIZE_MAX else 0 }

/-- `RawErasedVec::grow_exact`: asserts the element size is nonzero
(capacity overflow otherwise); from capacity 0 always grows to capacity 1,
otherwise to the requested capacity; the new layout is computed via
`TypeInfo::array` (`.unwrap()`) and asserted to fit in `isize::MAX`. -/
def RawErasedVec.grow_exact (v : RawErasedVec) (cap : Nat) : Except ErasedVecError RawErasedVec :=
  if v.ty.size = 0 then .error .capacityOverflow
  else
    match v.ty.array (if v.cap = 0 then 1 else cap) with
    | .error _ => .error .layoutUnwrapPanic
    | .ok layoutSize =>
      if layoutSize ≤ ISIZE_MAX then .ok { v with cap := if v.cap = 0 then 1 else cap }
      else .error .allocError

/-- `RawErasedVec::grow`: doubling growth, `grow_exact(2 * cap)`.  The
`2 * self.cap` multiplication itself can overflow `usize` (debug panic). -/
def RawErasedVec.grow (v : RawErasedVec) : Except ErasedVecError RawErasedVec :=
  if 2 * v.cap > USIZE_MAX then .error .mulOverflowPanic
  else v.grow_exact (2 * v.cap)

/-- Model of `ErasedVec` (`erased_collections.rs`): `buf`, `filled` and
`len` mirror the source fields; `mem` is the content of the raw
allocation, slot by slot; `dropLog` is the ghost log of destructor
invocations (slot indices, in call order). -/
structure ErasedVec where
  buf : RawErasedVec
  mem : Nat → Bytes
  filled : List Bool
  len : Nat
  dropLog : List Nat

/-- `ErasedVec::new::<T>()`. The fresh allocation is uninitialised; its
content is modelled as all-empty slots. -/
def ErasedVec.new (ty : TypeInfo) : ErasedVec :=
  { buf := RawErasedVec.new ty, mem := fun _ => [], filled := [], len := 0, dropLog := [] }

/-- `ErasedVec::ty()`. -/
def ErasedVec.ty (v : ErasedVec) : TypeInfo := v.buf.ty

/-- One-slot write into the raw allocation
(`ptr::copy_nonoverlapping` of one element at slot `i`). -/
def writeSlot (m : Nat → Bytes) (i : Nat) (b : Bytes) : Nat → Bytes :=
  fun j => if j = i then b else m j

/-- The memory after `insert` shifts slots `index..len` one slot right
and writes `b` at `index` (`ptr::copy` of `len - index` elements, then
`ptr::copy_nonoverlapping`). -/
def shiftSlots (m : Nat → Bytes) (index len : Nat) (b : Bytes) : Nat → Bytes :=
  fun j =>
    if j < index then m j
    else if j = index then b
    else if j ≤ len then m (j - 1)
    else m j

/-- The `if self.len == self.cap() { self.buf.grow() }` prologue shared
by the writing operations. -/
def ErasedVec.growIfFull (v : ErasedVec) : Except ErasedVecError RawErasedVec :=
  if v.len = v.buf.cap then v.buf.grow else .ok v.buf

/-- `ErasedVec::assert_type_info_insert` — panics with
`IncorrectTypeInsertion` unless the ids match (source `PartialEq` on
`TypeInfo` compares ids). -/
def ErasedVec.checkInsertTy (v : ErasedVec) (ty : TypeInfo) : Except ErasedVecError Unit :=
  if ty.id = v.ty.id then .ok () else .error .incorrectTypeInsertion

/-- `ErasedVec::assert_type_info` — panics with `DoesNotContainType`
unless the ids match. -/
def ErasedVec.checkTy (v : ErasedVec) (ty : TypeInfo) : Except ErasedVecError Unit :=
  if ty.id = v.ty.id then .ok () else .error .doesNotContainType

/-- `ErasedVec::get::<T>`: type check, then bounds check
(`index <= len`), then read the slot. -/
def ErasedVec.get (v : ErasedVec) (ty : TypeInfo) (index : Nat) : Except ErasedVecError Bytes :=
  match v.checkTy ty with
  | .error e => .error e
  | .ok _ =>
    if index > v.len then .error (.indexOutOfBounds v.len index)
    else .ok (v.mem index)

/-- `ErasedVec::get_unchecked`: bounds check only (type check skipped). -/
def ErasedVec.get_unchecked (v : ErasedVec) (index : Nat) : Except ErasedVecError Bytes :=
  if index > v.len then .error (.indexOutOfBounds v.len index)
  else .ok (v.mem index)

/-- `ErasedVec::get_mut::<T>`: same checks as `get`; the returned mutable
reference is modelled by the bytes it points at. -/
def ErasedVec.get_mut (v : ErasedVec) (ty : TypeInfo) (index : Nat) : Except ErasedVecError Bytes :=
  match v.checkTy ty with
  | .error e => .error e
  | .ok _ =>
    if index > v.len then .error (.indexOutOfBounds v.len index)
    else .ok (v.mem index)

/-- `ErasedVec::get_mut_unchecked`: bounds check only. -/
def ErasedVec.get_mut_unchecked (v : ErasedVec) (index : Nat) : Except ErasedVecError Bytes :=
  if index > v.len then .error (.indexOutOfBounds v.len index)
  else .ok (v.mem index)

/-- `ErasedVec::push::<T>`: type check, grow when full, copy the value
into slot `len`, push `true` onto `filled`, bump `len`. -/
def ErasedVec.push (v : ErasedVec) (ty : TypeInfo) (value : Bytes) : Except ErasedVecError ErasedVec :=
  match v.checkInsertTy ty with
  | .error e => .error e
  | .ok _ =>
    match v.growIfFull with
    | .error e => .error e
    | .ok buf =>
      .ok { v with buf, mem := writeSlot v.mem v.len value,
                   filled := v.filled ++ [true], len := v.len + 1 }

/-- `ErasedVec::push_erased`: grow when full, then type check, then copy
the value into slot `len`, push `true` onto `filled`, bump `len`. -/
def ErasedVec.push_erased (v : ErasedVec) (value : Bytes) (ty : TypeInfo) : Except ErasedVecError ErasedVec :=
  match v.growIfFull with
  | .error e => .error e
  | .ok buf =>
    match v.checkInsertTy ty with
    | .error e => .error e
    | .ok _ =>
      .ok { v with buf, mem := writeSlot v.mem v.len value,
                   filled := v.filled ++ [true], len := v.len + 1 }

/-- `ErasedVec::pad`: `push_erased` a zero-byte pattern of the element
size, then `self.filled[len] = false` (a std `Vec` indexed store, which
panics when out of bounds). -/
def ErasedVec.pad (v : ErasedVec) : Except ErasedVecError ErasedVec :=
  match v.push_erased (List.replicate v.ty.size 0) v.ty with
  | .error e => .error e
  | .ok v1 =>
    if v.len < v1.filled.length then .ok { v1 with filled := v1.filled.set v.len false }
    else .error .vecIndexPanic

/-- `ErasedVec::insert::<T>`: type check, bounds check, grow when full,
shift slots `index..len` right, write the value at `index`,
`filled.insert(index, true)`, bump `len`. -/
def ErasedVec.insert (v : ErasedVec) (ty : TypeInfo) (index : Nat) (value : Bytes) : Except ErasedVecError ErasedVec :=
  match v.checkInsertTy ty with
  | .error e => .error e
  | .ok _ =>
    if index > v.len then .error (.indexOutOfBounds v.len index)
    else
      match v.growIfFull with
      | .error e => .error e
      | .ok buf =>
        if index ≤ v.filled.length then
          .ok { v with buf, mem := shiftSlots v.mem index v.len value,
                       filled := v.filled.insertIdx index true, len := v.len + 1 }
        else .error .vecIndexPanic

/-- `ErasedVec::insert_erased`: grow when full, then bounds check, then
type check, then shift-and-write as `insert`. -/
def ErasedVec.insert_erased (v : ErasedVec) (value : Bytes) (ty : TypeInfo) (index : Nat) : Except ErasedVecError ErasedVec :=
  match v.growIfFull with
  | .error e => .error e
  | .ok buf =>
    if index > v.len then .error (.indexOutOfBounds v.len index)
    else
      match v.checkInsertTy ty with
      | .error e => .error e
      | .ok _ =>
        if index ≤ v.filled.length then
          .ok { v with buf, mem := shiftSlots v.mem index v.len value,
                       filled := v.filled.insertIdx index true, len := v.len + 1 }
        else .error .vecIndexPanic

/-- `ErasedVec::set::<T>`: type check, bounds check, grow when full,
overwrite slot `index` in place.  Note: the source does not touch the
`filled` flag here. -/
def ErasedVec.set (v : ErasedVec) (ty : TypeInfo) (index : Nat) (data : Bytes) : Except ErasedVecError ErasedVec :=
  match v.checkInsertTy ty with
  | .error e => .error e
  | .ok _ =>
    if index > v.len then .error (.indexOutOfBounds v.len index)
    else
      match v.growIfFull with
      | .error e => .error e
      | .ok buf => .ok { v with buf, mem := writeSlot v.mem index data }

/-- `ErasedVec::set_erased`: grow when full, then bounds check, then type
check, overwrite slot `index` in place, then `self.filled[index] = true`
(std `Vec` indexed store: panics when out of bounds). -/
def ErasedVec.set_erased (v : ErasedVec) (index : Nat) (ty : TypeInfo) (value : Bytes) : Except ErasedVecError ErasedVec :=
  match v.growIfFull with
  | .error e => .error e
  | .ok buf =>
    if index > v.len then .error (.indexOutOfBounds v.len index)
    else
      match v.checkInsertTy ty with
      | .error e => .error e
      | .ok _ =>
        if index < v.filled.length then
          .ok { v with buf, mem := writeSlot v.mem index value,
                       filled := v.filled.set index true }
        else .error .vecIndexPanic

/-- `ErasedVec::clear`: bounds check, then invoke the stored destructor
on slot `index` (recorded in the ghost `dropLog`). -/
def ErasedVec.clear (v : ErasedVec) (index : Nat) : Except ErasedVecError ErasedVec :=
  if index > v.len then .error (.indexOutOfBounds v.len index)
  else .ok { v with dropLog := v.dropLog ++ [index] }

/-- `ErasedVec::reset_erased`: `clear(index)` then `set_erased`. -/
def ErasedVec.reset_erased (v : ErasedVec) (index : Nat) (ty : TypeInfo) (value : Bytes) : Except ErasedVecError ErasedVec :=
  match v.clear index with
  | .error e => .error e
  | .ok v1 => v1.set_erased index ty value

/-! ## The entity/component table (`src/world/entities.rs`) -/

/-- The error values and panic sources of `EntitiesInner`
(`src/errors.rs::EcsErrors` plus the panics the code can hit). -/
inductive EcsError
  /-- `EcsErrors::CreateComponentNeverCalled` -/
  | createComponentNeverCalled
  /-- `EcsErrors::ComponentNotRegistered` -/
  | componentNotRegistered
  /-- `EcsErrors::EntityDoesNotExist` -/
  | entityDoesNotExist
  /-- `.unwrap()` panic on an `Option` the code expects to be `Some` -/
  | unwrapPanic
  /-- debug-mode `1u128 << k` shift-overflow panic for `k ≥ 128` -/
  | shiftOverflowPanic
  /-- std `Vec` index panic (`self.map[entity]` out of bounds) -/
  | mapIndexPanic
  /-- a panic propagated from the column storage -/
  | storage (e : ErasedVecError)
deriving DecidableEq, Repr

/-- `TypeMap<V>` (`src/storage/type_map.rs`) modelled as an association
list in insertion order; keys are compared by `TypeInfo` id (the source
`PartialEq`/`Hash` use the id only). -/
abbrev TypeMap (V : Type) := List (TypeInfo × V)

/-- `HashMap::get`. -/
def tmGet {V : Type} (m : TypeMap V) (ty : TypeInfo) : Option V :=
  (m.find? (fun p => p.1.id == ty.id)).map Prod.snd

/-- `HashMap::insert`: replaces the value when the key is present,
otherwise appends the new entry. -/
def tmInsert {V : Type} (m : TypeMap V) (ty : TypeInfo) (v : V) : TypeMap V :=
  if m.any (fun p => p.1.id == ty.id) then
    m.map (fun p => if p.1.id == ty.id then (p.1, v) else p)
  else m ++ [(ty, v)]

/-- In-place mutation through `HashMap::get_mut`: replace the value at an
existing key. -/
def tmSet {V : Type} (m : TypeMap V) (ty : TypeInfo) (v : V) : TypeMap V :=
  m.map (fun p => if p.1.id == ty.id then (p.1, v) else p)

/-- Model of `EntitiesInner` (`src/world/entities.rs`): the per-type
columns, the per-type registration bitmasks, the per-entity mask vector
(`map`, u128 words as `Nat`) and the staging cursor. -/
structure EntitiesInner where
  components : TypeMap ErasedVec
  bitmasks : TypeMap Nat
  map : List Nat
  inserting_into_index : Nat

/-- `EntitiesInner::default()`. -/
def EntitiesInner.mkDefault : EntitiesInner :=
  { components := [], bitmasks := [], map := [], inserting_into_index := 0 }

/-- `EntitiesInner::register_component::<T>`: create a column for the
type and assign it the bitmask `1 << bitmasks.len()` (a u128 shift, which
panics in debug mode once 128 types are registered). -/
def EntitiesInner.register_component (e : EntitiesInner) (ty : TypeInfo) : Except EcsError EntitiesInner :=
  if e.bitmasks.length ≥ 128 then .error .shiftOverflowPanic
  else
    .ok { e with components := tmInsert e.components ty (ErasedVec.new ty),
                 bitmasks := tmInsert e.bitmasks ty (1 <<< e.bitmasks.length) }

/-- `EntitiesInner::get_bitmask`. -/
def EntitiesInner.get_bitmask (e : EntitiesInner) (ty : TypeInfo) : Option Nat :=
  tmGet e.bitmasks ty

/-- The `components.iter_mut().for_each(|(_key, c)| c.pad())` loop of
`create_entity`: pad every column in order, propagating any panic. -/
def padAll (comps : TypeMap ErasedVec) : Except EcsError (TypeMap ErasedVec) :=
  match comps with
  | [] => .ok []
  | p :: rest =>
    match p.2.pad with
    | .error err => .error (.storage err)
    | .ok padded =>
      match padAll rest with
      | .error err => .error err
      | .ok rest1 => .ok ((p.1, padded) :: rest1)

/-- `EntitiesInner::create_entity`: reuse the first slot whose mask is 0;
otherwise pad every column, push a 0 mask word and use the new last
index.  Returns the entity id together with the updated table. -/
def EntitiesInner.create_entity (e : EntitiesInner) : Except EcsError (Nat × EntitiesInner) :=
  match e.map.findIdx? (fun mask => mask == 0) with
  | some index => .ok (index, { e with inserting_into_index := index })
  | none =>
    match padAll e.components with
    | .error err => .error err
    | .ok comps =>
      .ok (e.map.length, { e with components := comps, map := e.map ++ [0],
                                  inserting_into_index := e.map.length })

/-- `EntitiesInner::with_component::<T>`: `set` the value into the column
at `inserting_into_index`, then OR the type's bitmask into
`map[inserting_into_index]` (a std `Vec` indexed store). -/
def EntitiesInner.with_component (e : EntitiesInner) (ty : TypeInfo) (data : Bytes) : Except EcsError EntitiesInner :=
  let index := e.inserting_into_index
  match tmGet e.components ty with
  | some comps =>
    match comps.set ty index data with
    | .error err => .error (.storage err)
    | .ok comps1 =>
      match tmGet e.bitmasks ty with
      | some bitmask =>
        if index < e.map.length then
          .ok { e with components := tmSet e.components ty comps1,
                       map := e.map.set index (e.map.getD index 0 ||| bitmask) }
        else .error .mapIndexPanic
      | none => .error .unwrapPanic
  | none => .error .createComponentNeverCalled

/-- `EntitiesInner::delete_component::<T>`: when the type has a bitmask,
AND its complement into the entity's mask word; otherwise do nothing.
Returns `Ok` in both cases. -/
def EntitiesInner.delete_component (e : EntitiesInner) (ty : TypeInfo) (entity : Nat) : Except EcsError EntitiesInner :=
  match tmGet e.bitmasks ty with
  | some mask =>
    if entity < e.map.length then
      .ok { e with map := e.map.set entity (e.map.getD entity 0 &&& ((2 ^ 128 - 1) ^^^ mask)) }
    else .error .mapIndexPanic
  | none => .ok e

/-- `EntitiesInner::delete_component_erased`: same body as
`delete_component` with an explicit `TypeInfo` argument. -/
def EntitiesInner.delete_component_erased (e : EntitiesInner) (entity : Nat) (ty : TypeInfo) : Except EcsError EntitiesInner :=
  match tmGet e.bitmasks ty with
  | some mask =>
    if entity < e.map.length then
      .ok { e with map := e.map.set entity (e.map.getD entity 0 &&& ((2 ^ 128 - 1) ^^^ mask)) }
    else .error .mapIndexPanic
  | none => .ok e

/-- `EntitiesInner::has_component_erased`: bitmask test
`(map[entity] & mask) != 0`; `ComponentNotRegistered` when the type has
no bitmask. -/
def EntitiesInner.has_component_erased (e : EntitiesInner) (entity : Nat) (ty : TypeInfo) : Except EcsError Bool :=
  match e.get_bitmask ty with
  | some mask =>
    if entity < e.map.length then .ok (e.map.getD entity 0 &&& mask ≠ 0)
    else .error .mapIndexPanic
  | none => .error .componentNotRegistered

/-- `EntitiesInner::has_component::<T>`: same test through
`TypeInfo::of::<T>()`. -/
def EntitiesInner.has_component (e : EntitiesInner) (ty : TypeInfo) (entity : Nat) : Except EcsError Bool :=
  match e.get_bitmask ty with
  | some mask =>
    if entity < e.map.length then .ok (e.map.getD entity 0 &&& mask ≠ 0)
    else .error .mapIndexPanic
  | none => .error .componentNotRegistered

/-- `EntitiesInner::add_component::<T>`: OR the bitmask into
`map[entity]` (error `ComponentNotRegistered` when absent), then
plain-`set` the value into the column (`components.get_mut(..).unwrap()`).
The typed path never tests the presence bit and never destructs. -/
def EntitiesInner.add_component (e : EntitiesInner) (ty : TypeInfo) (entity : Nat) (component : Bytes) : Except EcsError EntitiesInner :=
  match tmGet e.bitmasks ty with
  | some mask =>
    if entity < e.map.length then
      let e1 : EntitiesInner := { e with map := e.map.set entity (e.map.getD entity 0 ||| mask) }
      match tmGet e1.components ty with
      | some comps =>
        match comps.set ty entity component with
        | .error err => .error (.storage err)
        | .ok comps1 => .ok { e1 with components := tmSet e1.components ty comps1 }
      | none => .error .unwrapPanic
    else .error .mapIndexPanic
  | none => .error .componentNotRegistered

/-- `EntitiesInner::add_component_erased`: first tests the presence bit;
when set, takes the destructive `reset_erased` path, otherwise
`set_erased`; then ORs the bitmask into `map[entity]`. -/
def EntitiesInner.add_component_erased (e : EntitiesInner) (entity : Nat) (ty : TypeInfo) (value : Bytes) : Except EcsError EntitiesInner :=
  match e.has_component_erased entity ty with
  | .error err => .error err
  | .ok has =>
    match tmGet e.components ty with
    | some comps =>
      match (if has then comps.reset_erased entity ty value else comps.set_erased entity ty value) with
      | .error err => .error (.storage err)
      | .ok comps1 =>
        match tmGet e.bitmasks ty with
        | some bitmask =>
          if entity < e.map.length then
            .ok { e with components := tmSet e.components ty comps1,
                         map := e.map.set entity (e.map.getD entity 0 ||| bitmask) }
          else .error .mapIndexPanic
        | none => .error .unwrapPanic
    | none => .error .createComponentNeverCalled

/-- `EntitiesInner::delete_entity`: zero the entity's whole mask word;
`EntityDoesNotExist` when the id is out of range. -/
def EntitiesInner.delete_entity (e : EntitiesInner) (entity : Nat) : Except EcsError EntitiesInner :=
  if entity < e.map.length then .ok { e with map := e.map.set entity 0 }
  else .error .entityDoesNotExist

/-! ## The query (`src/world/query/query.rs`) -/

/-- Model of `Query`: the accumulated include (`map`) and exclude
(`exclude_map`) bitmasks.  The borrowed table is passed to `run`. -/
structure Query where
  map : Nat
  exclude_map : Nat
deriving DecidableEq, Repr

/-- `Query::run`: scan the table's mask vector in index order and keep
index `i` when `(mask[i] & (include | exclude)) == include`; each kept
index becomes one `QueryEntity` handle (modelled by the index it
carries). -/
def Query.run (q : Query) (entityMap : List Nat) : List Nat :=
  entityMap.enum.filterMap (fun p =>
    if p.2 &&& (q.map ||| q.exclude_map) == q.map then some p.1 else none)

/-! ## The packed staging buffer (`NoDropTuple`) -/

/-- `Iterator::max_by` under a `Nat` projection: left fold that keeps the
later element on ties, `None` on the empty list. -/
def maxByProj (f : TypeInfo → Nat) (l : List TypeInfo) : Option TypeInfo :=
  l.foldl (fun acc t =>
    match acc with
    | none => some t
    | some a => if f a > f t then some a else some t) none

/-- `Iterator::max_by` on the element sizes. -/
def maxBySize (l : List TypeInfo) : Option TypeInfo :=
  maxByProj (fun t => t.size) l

/-- `Iterator::max_by` on the element alignments. -/
def maxByAlign (l : List TypeInfo) : Option TypeInfo :=
  maxByProj (fun t => t.align) l

/-- `align.is_power_of_two()` as checked by `Layout::from_size_align`. -/
def isPow2 (n : Nat) : Bool := n ≠ 0 && n &&& (n - 1) == 0

/-- `Layout::from_size_align(size, align)`: requires a power-of-two
alignment and that the size, rounded up to the alignment, fits in
`isize::MAX`. -/
def layoutFromSizeAlign (size align : Nat) : Except Unit Unit :=
  if isPow2 align ∧ size ≤ ISIZE_MAX - (align - 1) then .ok () else .error ()

/-- Model of `NoDropTuple` (`erased_collections.rs`): the descriptor
list, the fixed slot stride (`field_size`), the arity and the layout of
the backing allocation. -/
structure NoDropTuple where
  tys : List TypeInfo
  field_size : Nat
  len : Nat
  layoutSize : Nat
  layoutAlign : Nat
deriving DecidableEq, Repr

/-- `NoDropTuple::new::<B>` for a bundle with descriptor list `tys`
(`B::types()`) and arity `tys.length` (`B::LENGTH`): the slot stride and
the alignment are the `.max_by(..).unwrap()` over the descriptors (an
`unwrap` panic on the empty bundle), then
`Layout::from_size_align(field_size * len, align).unwrap()` sizes the
allocation. -/
def NoDropTuple.new (tys : List TypeInfo) : Except EcsError NoDropTuple :=
  match maxBySize tys with
  | none => .error .unwrapPanic
  | some tmax =>
    match maxByAlign tys with
    | none => .error .unwrapPanic
    | some amax =>
      match layoutFromSizeAlign (tmax.size * tys.length) amax.align with
      | .error _ => .error .unwrapPanic
      | .ok _ =>
        .ok { tys, field_size := tmax.size, len := tys.length,
              layoutSize := tmax.size * tys.length, layoutAlign := amax.align }

/-! ## Shared lemmas -/

/-- Membership in the index scan: the kept indices are exactly the
offsets (shifted by the start index `k`) of the mask words passing the
filter. -/
theorem enumFrom_filterMap_mem (c : Nat → Bool) :
    ∀ (m : List Nat) (k i : Nat),
      (i ∈ (m.enumFrom k).filterMap (fun p => if c p.2 then some p.1 else none)) ↔
      ∃ j, j < m.length ∧ i = k + j ∧ c (m.getD j 0) := by
  intro m
  induction m with
  | nil => intro k i; simp
  | cons a t ih =>
    intro k i
    by_cases h : c a
    · simp only [List.enumFrom, List.filterMap_cons, h, if_pos, List.mem_cons, ih (k + 1)]
      constructor
      · rintro (rfl | ⟨j, hj, rfl, hc⟩)
        · exact ⟨0, by simp, by omega, by simpa using h⟩
        · exact ⟨j + 1, by simp only [List.length_cons]; omega, by omega, by simpa using hc⟩
      · rintro ⟨j, hj, rfl, hc⟩
        cases j with
        | zero => left; omega
        | succ j =>
          right
          exact ⟨j, by simp only [List.length_cons] at hj; omega, by omega, by simpa using hc⟩
    · simp only [List.enumFrom, List.filterMap_cons, h, if_neg, Bool.false_eq_true,
        not_false_iff, ih (k + 1)]
      constructor
      · rintro ⟨j, hj, rfl, hc⟩
        exact ⟨j + 1, by simp only [List.length_cons]; omega, by omega, by simpa using hc⟩
      · rintro ⟨j, hj, rfl, hc⟩
        cases j with
        | zero => exact absurd (by simpa using hc) h
        | succ j =>
          exact ⟨j, by simp only [List.length_cons] at hj; omega, by omega, by simpa using hc⟩

/-- Every index kept by the scan starting at `k` is at least `k`. -/
theorem enumFrom_filterMap_ge (c : Nat → Bool) :
    ∀ (m : List Nat) (k : Nat),
      ∀ i ∈ (m.enumFrom k).filterMap (fun p => if c p.2 then some p.1 else none), k ≤ i := by
  intro m k i hi
  obtain ⟨j, _, rfl, _⟩ := (enumFrom_filterMap_mem c m k i).1 hi
  omega

/-- The indices kept by the scan are strictly increasing. -/
theorem enumFrom_filterMap_pairwise (c : Nat → Bool) :
    ∀ (m : List Nat) (k : Nat),
      ((m.enumFrom k).filterMap (fun p => if c p.2 then some p.1 else none)).Pairwise (· < ·) := by
  intro m
  induction m with
  | nil => intro k; simp
  | cons a t ih =>
    intro k
    by_cases h : c a
    · simp only [List.enumFrom, List.filterMap_cons, h, if_pos]
      refine List.Pairwise.cons ?_ (ih (k + 1))
      intro i hi
      have := enumFrom_filterMap_ge c t (k + 1) i hi
      omega
    · simpa only [List.enumFrom, List.filterMap_cons, h, Bool.false_eq_true, if_neg,
        not_false_iff] using ih (k + 1)

/-- Claim C1: for every table mask vector and every include/exclude mask
pair, `Query::run` returns exactly the indices `i` with
`(mask[i] & (include | exclude)) == include`, one handle per selected
index, in strictly ascending order and with no index selected twice. -/
theorem query_run_correct (q : Query) (m : List Nat) :
    (∀ i, i ∈ q.run m ↔
      i < m.length ∧ m.getD i 0 &&& (q.map ||| q.exclude_map) = q.map) ∧
    (q.run m).Pairwise (· < ·) ∧ (q.run m).Nodup := by
  refine ⟨fun i => ?_, ?_, ?_⟩
  · rw [Query.run, List.enum,
      enumFrom_filterMap_mem (fun mask => mask &&& (q.map ||| q.exclude_map) == q.map) m 0 i]
    constructor
    · rintro ⟨j, hj, rfl, hc⟩
      exact ⟨by omega, by simpa using hc⟩
    · rintro ⟨hi, hc⟩
      exact ⟨i, hi, by omega, by simpa using hc⟩
  · rw [Query.run, List.enum]
    exact enumFrom_filterMap_pairwise
      (fun mask => mask &&& (q.map ||| q.exclude_map) == q.map) m 0
  · rw [Query.run, List.enum]
    exact (enumFrom_filterMap_pairwise
      (fun mask => mask &&& (q.map ||| q.exclude_map) == q.map) m 0).imp Nat.ne_of_lt

/-- A successful `grow_exact` yields capacity 1 from capacity 0 and the
requested capacity otherwise. -/
theorem grow_exact_cap (b : RawErasedVec) (c : Nat) (b1 : RawErasedVec)
    (hok : b.grow_exact c = .ok b1) : b1.cap = if b.cap = 0 then 1 else c := by
  unfold RawErasedVec.grow_exact at hok
  split at hok
  · exact absurd hok (by simp)
  · split at hok
    · exact absurd hok (by simp)
    · split at hok
      · cases hok
        simp
      · exact absurd hok (by simp)

/-- A successful `grow_exact` keeps the element type. -/
theorem grow_exact_ty (b : RawErasedVec) (c : Nat) (b1 : RawErasedVec)
    (hok : b.grow_exact c = .ok b1) : b1.ty = b.ty := by
  unfold RawErasedVec.grow_exact at hok
  split at hok
  · exact absurd hok (by simp)
  · split at hok
    · exact absurd hok (by simp)
    · split at hok
      · cases hok; rfl
      · exact absurd hok (by simp)

/-- A successful `grow` is a successful `grow_exact` at twice the old
capacity. -/
theorem grow_eq_grow_exact (b : RawErasedVec) (b1 : RawErasedVec)
    (hok : b.grow = .ok b1) : b.grow_exact (2 * b.cap) = .ok b1 := by
  unfold RawErasedVec.grow at hok
  split at hok
  · exact absurd hok (by simp)
  · exact hok

/-- Claim C6: for a nonzero-size element type, any successful growth from
capacity 0 yields capacity 1; a successful doubling growth (`grow`) from
nonzero capacity `c` yields capacity `2 * c`; a successful exact-size
growth from nonzero capacity yields exactly the requested target. -/
theorem raw_growth_policy (b : RawErasedVec) (hsz : b.ty.size ≠ 0) :
    (b.cap = 0 → ∀ (c : Nat) (b1 : RawErasedVec), b.grow_exact c = .ok b1 → b1.cap = 1) ∧
    (b.cap ≠ 0 → ∀ (b1 : RawErasedVec), b.grow = .ok b1 → b1.cap = 2 * b.cap) ∧
    (b.cap ≠ 0 → ∀ (c : Nat) (b1 : RawErasedVec), b.grow_exact c = .ok b1 → b1.cap = c) := by
  refine ⟨?_, ?_, ?_⟩
  · intro h0 c b1 hok
    rw [grow_exact_cap b c b1 hok, if_pos h0]
  · intro h0 b1 hok
    rw [grow_exact_cap b (2 * b.cap) b1 (grow_eq_grow_exact b b1 hok), if_neg h0]
  · intro h0 c b1 hok
    rw [grow_exact_cap b c b1 hok, if_neg h0]

/-- Witness for C6 at a concrete 4-byte element type: exact growth from
capacity 3 to 10 succeeds and the theorem forces the result capacity 10. -/
theorem raw_growth_policy_witness : (RawErasedVec.mk ⟨1, 4, 4⟩ 10).cap = 10 := by
  refine (raw_growth_policy (RawErasedVec.mk ⟨1, 4, 4⟩ 3) (by decide)).2.2 (by decide)
    10 (RawErasedVec.mk ⟨1, 4, 4⟩ 10) ?_
  rfl

/-- When the vector is not at capacity the growth prologue is a no-op. -/
theorem growIfFull_not_full (v : ErasedVec) (h : v.len ≠ v.buf.cap) :
    v.growIfFull = .ok v.buf := by
  unfold ErasedVec.growIfFull
  rw [if_neg h]

/-- The insert-direction type check passes against the vector's own type. -/
theorem checkInsertTy_self (v : ErasedVec) : v.checkInsertTy v.ty = .ok () := by
  unfold ErasedVec.checkInsertTy
  rw [if_pos rfl]

/-- Setting the appended element of `l ++ [a]` rewrites just that element. -/
theorem set_append_length (l : List Bool) (a b : Bool) :
    (l ++ [a]).set l.length b = l ++ [b] := by
  induction l with
  | nil => rfl
  | cons x t ih => simpa using ih

/-- Anatomy of a successful `push_erased`: the growth prologue succeeded
and the result appends the value, a `true` fill flag and one length. -/
theorem push_erased_ok_props (v : ErasedVec) (bts : Bytes) (ty : TypeInfo) (v1 : ErasedVec)
    (hok : v.push_erased bts ty = .ok v1) :
    ∃ buf, v.growIfFull = .ok buf ∧
      v1 = { v with buf, mem := writeSlot v.mem v.len bts,
                    filled := v.filled ++ [true], len := v.len + 1 } := by
  unfold ErasedVec.push_erased at hok
  split at hok
  · exact absurd hok (by simp)
  · split at hok
    · exact absurd hok (by simp)
    · cases hok
      exact ⟨_, by assumption, rfl⟩

/-- Anatomy of a successful `pad`: one all-zero, not-filled slot is
appended; nothing else changes and no destructor runs. -/
theorem pad_ok_props (v : ErasedVec) (v1 : ErasedVec)
    (hfill : v.filled.length = v.len) (hok : v.pad = .ok v1) :
    ∃ buf, v.growIfFull = .ok buf ∧ v1.buf = buf ∧ v1.ty = buf.ty ∧
      v1.len = v.len + 1 ∧ v1.filled = v.filled ++ [false] ∧
      v1.mem = writeSlot v.mem v.len (List.replicate v.ty.size 0) ∧
      v1.dropLog = v.dropLog := by
  unfold ErasedVec.pad at hok
  split at hok
  · exact absurd hok (by simp)
  · next v2 heq =>
    obtain ⟨buf, hbuf, rfl⟩ := push_erased_ok_props v _ _ v2 heq
    split at hok
    · cases hok
      refine ⟨buf, hbuf, rfl, rfl, rfl, ?_, rfl, rfl⟩
      simpa [hfill] using set_append_length v.filled true false
    · exact absurd hok (by simp)

/-- A `pad` on a vector whose fill vector matches its length and which is
not at capacity always succeeds. -/
theorem pad_ok_of_not_full (v : ErasedVec)
    (hfill : v.filled.length = v.len) (h : v.len ≠ v.buf.cap) :
    v.pad = .ok { v with mem := writeSlot v.mem v.len (List.replicate v.ty.size 0),
                         filled := v.filled ++ [false], len := v.len + 1 } := by
  unfold ErasedVec.pad ErasedVec.push_erased
  rw [growIfFull_not_full v h, checkInsertTy_self]
  have hlt : v.len < (v.filled ++ [true]).length := by
    simp [hfill]
  simp only [hlt, if_pos]
  have := set_append_length v.filled true false
  rw [hfill] at this
  simp [this]

/-- Claim C8: a column over a zero-size element type starts with capacity
`usize::MAX`; the growth path (`grow_exact`) for such a type always fails
with the capacity-overflow error; and while the length is below the
capacity sentinel, `push`, `pad`, `insert` and `set` all succeed without
touching the allocation (same `buf`, so no growth and no allocation), so
the error branch is unreachable. -/
theorem zst_column_no_alloc (v : ErasedVec) (b : Bytes) (index : Nat)
    (h0 : v.ty.size = 0) (hlen : v.len < v.buf.cap)
    (hfill : v.filled.length = v.len) (hidx : index ≤ v.len) :
    ((ErasedVec.new v.ty).buf.cap = USIZE_MAX) ∧
    (∀ c, v.buf.grow_exact c = .error .capacityOverflow) ∧
    (∃ v1, v.push v.ty b = .ok v1 ∧ v1.buf = v.buf ∧ v1.filled.length = v1.len) ∧
    (∃ v1, v.pad = .ok v1 ∧ v1.buf = v.buf ∧ v1.filled.length = v1.len) ∧
    (∃ v1, v.insert v.ty index b = .ok v1 ∧ v1.buf = v.buf ∧ v1.filled.length = v1.len) ∧
    (∃ v1, v.set v.ty index b = .ok v1 ∧ v1.buf = v.buf ∧ v1.filled.length = v1.len) := by
  have hne : v.len ≠ v.buf.cap := Nat.ne_of_lt hlen
  have h0b : v.buf.ty.size = 0 := h0
  have hngt : ¬ index > v.len := by omega
  have hile : index ≤ v.filled.length := by omega
  refine ⟨?_, ?_, ?_, ?_, ?_, ?_⟩
  · simp [ErasedVec.new, RawErasedVec.new, ErasedVec.ty, h0b]
  · intro c
    unfold RawErasedVec.grow_exact
    rw [if_pos h0b]
  · refine ⟨{ v with mem := writeSlot v.mem v.len b, filled := v.filled ++ [true], len := v.len + 1 }, ?_, rfl, ?_⟩
    · unfold ErasedVec.push
      rw [checkInsertTy_self, growIfFull_not_full v hne]
    · simp [hfill]
  · refine ⟨_, pad_ok_of_not_full v hfill hne, rfl, ?_⟩
    simp [hfill]
  · refine ⟨{ v with mem := shiftSlots v.mem index v.len b, filled := v.filled.insertIdx index true, len := v.len + 1 }, ?_, rfl, ?_⟩
    · unfold ErasedVec.insert
      rw [checkInsertTy_self, if_neg hngt, growIfFull_not_full v hne]
      simp [hile]
    · simp only [List.length_insertIdx index v.filled (by omega)]
      omega
  · refine ⟨{ v with mem := writeSlot v.mem index b }, ?_, rfl, hfill⟩
    unfold ErasedVec.set
    rw [checkInsertTy_self, if_neg hngt, growIfFull_not_full v hne]

/-- Witness for C8: a concrete zero-size-type column of length 2 accepts
a further `set` at index 1 without allocating. -/
theorem zst_column_no_alloc_witness :
    ((ErasedVec.new ⟨7, 0, 1⟩).buf.cap = USIZE_MAX) ∧
    (∀ c, (RawErasedVec.mk ⟨7, 0, 1⟩ USIZE_MAX).grow_exact c = .error .capacityOverflow) := by
  have h := zst_column_no_alloc
    { buf := ⟨⟨7, 0, 1⟩, USIZE_MAX⟩, mem := fun _ => [], filled := [true, true],
      len := 2, dropLog := [] } [] 1 rfl (by decide) rfl (by decide)
  exact ⟨h.1, h.2.1⟩

/-- Whether an operation failed with the index-out-of-bounds error
(`ErasedVecErrors::IndexOutOfBounds`), as opposed to succeeding or
failing with any other error. -/
def isIOOB {α : Type} : Except ErasedVecError α → Bool
  | .error (.indexOutOfBounds _ _) => true
  | _ => false

/-- `isIOOB` pushes through an `if`. -/
theorem isIOOB_ite (c : Prop) [Decidable c] {α : Type} (x y : Except ErasedVecError α) :
    isIOOB (if c then x else y) = if c then isIOOB x else isIOOB y := by
  split <;> rfl

/-- Claim C7: every checked indexed column operation bounds-checks the
index against the current logical length and fails with the
index-out-of-bounds error exactly when `index > len`; in particular
`index = len` passes the bounds check.  The type is assumed to match
(a mismatch fails earlier with a type error on the type-checked
operations) and the growth prologue of the erased writers is assumed not
to fail (its errors are allocation errors, not bounds errors). -/
theorem bounds_checks_exact (v : ErasedVec) (ty : TypeInfo) (index : Nat) (b : Bytes)
    (hty : ty.id = v.ty.id)
    (hgrow : v.len = v.buf.cap → (v.buf.grow).isOk) :
    (isIOOB (v.get ty index) = true ↔ index > v.len) ∧
    (isIOOB (v.get_mut ty index) = true ↔ index > v.len) ∧
    (isIOOB (v.get_unchecked index) = true ↔ index > v.len) ∧
    (isIOOB (v.get_mut_unchecked index) = true ↔ index > v.len) ∧
    (isIOOB (v.insert ty index b) = true ↔ index > v.len) ∧
    (isIOOB (v.insert_erased b ty index) = true ↔ index > v.len) ∧
    (isIOOB (v.set ty index b) = true ↔ index > v.len) ∧
    (isIOOB (v.set_erased index ty b) = true ↔ index > v.len) ∧
    (isIOOB (v.clear index) = true ↔ index > v.len) := by
  have hcheckI : v.checkInsertTy ty = .ok () := by
    unfold ErasedVec.checkInsertTy
    rw [if_pos hty]
  have hcheckT : v.checkTy ty = .ok () := by
    unfold ErasedVec.checkTy
    rw [if_pos hty]
  have hgf : ∃ buf, v.growIfFull = .ok buf := by
    unfold ErasedVec.growIfFull
    by_cases h : v.len = v.buf.cap
    · rw [if_pos h]
      rcases hg : v.buf.grow with e | b1
      · rw [hg] at hgrow
        exact absurd (hgrow h) (by simp [Except.isOk, Except.toBool])
      · exact ⟨b1, rfl⟩
    · rw [if_neg h]
      exact ⟨v.buf, rfl⟩
  obtain ⟨buf, hbuf⟩ := hgf
  refine ⟨?_, ?_, ?_, ?_, ?_, ?_, ?_, ?_, ?_⟩
  · unfold ErasedVec.get
    rw [hcheckT]
    by_cases hi : index > v.len
    · simp [hi, isIOOB]
    · simp [hi, isIOOB]
  · unfold ErasedVec.get_mut
    rw [hcheckT]
    by_cases hi : index > v.len
    · simp [hi, isIOOB]
    · simp [hi, isIOOB]
  · unfold ErasedVec.get_unchecked
    by_cases hi : index > v.len
    · simp [hi, isIOOB]
    · simp [hi, isIOOB]
  · unfold ErasedVec.get_mut_unchecked
    by_cases hi : index > v.len
    · simp [hi, isIOOB]
    · simp [hi, isIOOB]
  · unfold ErasedVec.insert
    rw [hcheckI]
    by_cases hi : index > v.len
    · simp [hi, isIOOB]
    · simp only [hi, hbuf, isIOOB, if_neg hi, iff_false, Bool.not_eq_true]
      by_cases hf : index ≤ v.filled.length
      · rw [if_pos hf]
        simp
      · rw [if_neg hf]
        simp
  · unfold ErasedVec.insert_erased
    rw [hbuf]
    by_cases hi : index > v.len
    · simp [hi, isIOOB]
    · simp only [hi, hcheckI, isIOOB, if_neg hi, iff_false, Bool.not_eq_true]
      by_cases hf : index ≤ v.filled.length
      · rw [if_pos hf]
        simp
      · rw [if_neg hf]
        simp
  · unfold ErasedVec.set
    rw [hcheckI]
    by_cases hi : index > v.len
    · simp [hi, isIOOB]
    · simp [hi, hbuf, isIOOB]
  · unfold ErasedVec.set_erased
    rw [hbuf]
    by_cases hi : index > v.len
    · simp [hi, isIOOB]
    · simp only [hi, hcheckI, isIOOB, if_neg hi, iff_false, Bool.not_eq_true]
      by_cases hf : index < v.filled.length
      · rw [if_pos hf]
        simp
      · rw [if_neg hf]
        simp
  · unfold ErasedVec.clear
    by_cases hi : index > v.len
    · simp [hi, isIOOB]
    · simp [hi, isIOOB]

/-- Witness for C7 on a one-element, capacity-two column: index 2 fails
the bounds check with the index-out-of-bounds error while index 1 (equal
to the length) passes it. -/
theorem bounds_checks_exact_witness :
    isIOOB ((ErasedVec.mk ⟨⟨1, 4, 4⟩, 2⟩ (fun _ => []) [true] 1 []).get ⟨1, 4, 4⟩ 2) = true ∧
    isIOOB ((ErasedVec.mk ⟨⟨1, 4, 4⟩, 2⟩ (fun _ => []) [true] 1 []).get ⟨1, 4, 4⟩ 1) = false := by
  have h2 := (bounds_checks_exact (ErasedVec.mk ⟨⟨1, 4, 4⟩, 2⟩ (fun _ => []) [true] 1 [])
    ⟨1, 4, 4⟩ 2 [] rfl (fun h => absurd h (by decide))).1
  have h1 := (bounds_checks_exact (ErasedVec.mk ⟨⟨1, 4, 4⟩, 2⟩ (fun _ => []) [true] 1 [])
    ⟨1, 4, 4⟩ 1 [] rfl (fun h => absurd h (by decide))).1
  refine ⟨h2.mpr (by decide), ?_⟩
  have := h1.not
  simp only [Bool.not_eq_true] at this
  exact this.mpr (by decide)

/-- Characterisation of `List.findIdx?` with its start accumulator: a hit
is the first index (relative to the start) whose element satisfies the
predicate; a miss means no element does. -/
theorem findIdx?_spec (p : Nat → Bool) :
    ∀ (m : List Nat) (s : Nat),
      (∀ i, m.findIdx? p s = some i →
        s ≤ i ∧ i - s < m.length ∧ p (m.getD (i - s) 0) = true ∧
        ∀ j < i - s, p (m.getD j 0) = false) ∧
      (m.findIdx? p s = none → ∀ j < m.length, p (m.getD j 0) = false) := by
  intro m
  induction m with
  | nil => intro s; exact ⟨fun i h => by simp [List.findIdx?] at h, fun _ j hj => by simp at hj⟩
  | cons a t ih =>
    intro s
    constructor
    · intro i hi
      rw [List.findIdx?_cons] at hi
      by_cases hpa : p a = true
      · rw [if_pos hpa] at hi
        cases hi
        refine ⟨Nat.le_refl s, by simp, by simpa, fun j hj => by omega⟩
      · rw [if_neg hpa] at hi
        obtain ⟨h1, h2, h3, h4⟩ := (ih (s + 1)).1 i hi
        refine ⟨by omega, by simp only [List.length_cons]; omega, ?_, ?_⟩
        · have : i - s = (i - (s + 1)) + 1 := by omega
          rw [this, List.getD_cons_succ]
          exact h3
        · intro j hj
          cases j with
          | zero => simpa using (Bool.not_eq_true (p a)).mp hpa
          | succ j =>
            rw [List.getD_cons_succ]
            exact h4 j (by omega)
    · intro hn j hj
      rw [List.findIdx?_cons] at hn
      by_cases hpa : p a = true
      · rw [if_pos hpa] at hn
        cases hn
      · rw [if_neg hpa] at hn
        cases j with
        | zero => simpa using (Bool.not_eq_true (p a)).mp hpa
        | succ j =>
          rw [List.getD_cons_succ]
          exact (ih (s + 1)).2 hn j (by simp only [List.length_cons] at hj; omega)

/-- `padAll` succeeds when each column's `pad` does, and relates the
columns pointwise to their padded versions. -/
theorem padAll_ok (comps : TypeMap ErasedVec)
    (h : ∀ p ∈ comps, p.2.filled.length = p.2.len ∧ ∃ v1, p.2.pad = .ok v1) :
    ∃ comps1, padAll comps = .ok comps1 ∧
      List.Forall₂ (fun p p1 => p1.1 = p.1 ∧ p1.2.len = p.2.len + 1 ∧
        p1.2.filled = p.2.filled ++ [false] ∧
        p1.2.mem p.2.len = List.replicate p.2.ty.size 0 ∧
        p1.2.dropLog = p.2.dropLog) comps comps1 := by
  induction comps with
  | nil => exact ⟨[], rfl, List.Forall₂.nil⟩
  | cons p rest ih =>
    obtain ⟨hfill, v1, hpad⟩ := h p (by simp)
    obtain ⟨rest1, hrest, hrel⟩ := ih (fun q hq => h q (by simp [hq]))
    obtain ⟨buf, _, _, _, hlen, hfl, hmem, hdrop⟩ := pad_ok_props p.2 v1 hfill hpad
    refine ⟨(p.1, v1) :: rest1, ?_, ?_⟩
    · unfold padAll
      rw [hpad, hrest]
    · exact List.Forall₂.cons ⟨rfl, hlen, hfl, by rw [hmem]; simp [writeSlot], hdrop⟩ hrel

/-- Claim C3: `create_entity` returns the lowest slot index whose mask
word is 0 when one exists (leaving the mask vector and columns untouched,
so after deleting entity `i` with no lower free slot it returns `i`
again); when no mask is 0 it appends one padded (not-filled, zeroed) slot
to every registered column, grows the mask vector by exactly one, and
returns the new last index. -/
theorem create_entity_reuse_or_append (e : EntitiesInner) :
    ((∃ i, i < e.map.length ∧ e.map.getD i 0 = 0) →
      ∃ i e1, e.create_entity = .ok (i, e1) ∧ i < e.map.length ∧ e.map.getD i 0 = 0 ∧
        (∀ j < i, e.map.getD j 0 ≠ 0) ∧ e1.map = e.map ∧ e1.components = e.components) ∧
    ((∀ i < e.map.length, e.map.getD i 0 ≠ 0) →
      (∀ p ∈ e.components, p.2.filled.length = p.2.len ∧ ∃ v1, p.2.pad = .ok v1) →
      ∃ e1, e.create_entity = .ok (e.map.length, e1) ∧
        e1.map = e.map ++ [0] ∧ e1.map.length = e.map.length + 1 ∧
        List.Forall₂ (fun p p1 => p1.1 = p.1 ∧ p1.2.len = p.2.len + 1 ∧
          p1.2.filled = p.2.filled ++ [false] ∧
          p1.2.mem p.2.len = List.replicate p.2.ty.size 0 ∧
          p1.2.dropLog = p.2.dropLog) e.components e1.components) := by
  constructor
  · rintro ⟨i, hi, hzero⟩
    rcases hfind : e.map.findIdx? (fun mask => mask == 0) 0 with _ | j
    · have hx := (findIdx?_spec (fun mask => mask == 0) e.map 0).2 hfind i hi
      rw [hzero] at hx
      simp at hx
    · obtain ⟨_, hlt, hhit, hleast⟩ := (findIdx?_spec _ e.map 0).1 j hfind
      refine ⟨j, { e with inserting_into_index := j }, ?_, by omega, ?_, ?_, rfl, rfl⟩
      · unfold EntitiesInner.create_entity
        rw [hfind]
      · simpa using hhit
      · intro k hk
        have := hleast k (by omega)
        simpa using this
  · intro hall hpads
    rcases hfind : e.map.findIdx? (fun mask => mask == 0) 0 with _ | j
    · obtain ⟨comps1, hcomps, hrel⟩ := padAll_ok e.components hpads
      refine ⟨{ e with components := comps1, map := e.map ++ [0], inserting_into_index := e.map.length }, ?_, rfl, by simp, hrel⟩
      unfold EntitiesInner.create_entity
      rw [hfind, hcomps]
    · obtain ⟨_, hlt, hhit, _⟩ := (findIdx?_spec _ e.map 0).1 j hfind
      exact absurd (by simpa using hhit) (hall (j - 0) (by omega))

/-- Witness for C3, the slot-reuse scenario: a two-entity table where
entity 0 is live (mask 3) and entity 1 was deleted (mask 0);
`create_entity` returns index 1 again. -/
theorem create_entity_reuse_witness :
    ∃ i e1, (EntitiesInner.mk [] [] [3, 0] 0).create_entity = .ok (i, e1) ∧
      i < 2 ∧ [3, 0].getD i 0 = 0 ∧ (∀ j < i, [3, 0].getD j 0 ≠ 0) := by
  obtain ⟨i, e1, hrun, hlt, hzero, hleast, _, _⟩ :=
    (create_entity_reuse_or_append (EntitiesInner.mk [] [] [3, 0] 0)).1 ⟨1, by decide, by decide⟩
  exact ⟨i, e1, hrun, hlt, hzero, hleast⟩

/-! ## Concrete descriptors for witnesses and counterexamples -/

/-- A concrete 4-byte component descriptor (e.g. a `u32` component). -/
def tyU32 : TypeInfo := ⟨1, 4, 4⟩

/-- A second, distinct 8-byte component descriptor, never registered in
the example tables below. -/
def tyF64 : TypeInfo := ⟨2, 8, 8⟩

/-- The column state after `ErasedVec::new::<u32>()` followed by `pad()`:
one zeroed, not-filled slot, capacity 1. -/
def paddedU32 : ErasedVec :=
  { buf := ⟨tyU32, 1⟩, mem := writeSlot (fun _ => []) 0 (List.replicate 4 0),
    filled := [false], len := 1, dropLog := [] }

/-- Claim C2 (code bug): after reserving slot 0 via `pad`, both `set` and
`set_erased` overwrite the slot in place without shifting any other slot,
but the typed `set` leaves the slot's `filled` flag `false` (so the
destructor-on-drop skips the slot), while `set_erased` marks it `true`.
The spec asserts both mark it filled; the source of `ErasedVec::set`
never touches `filled`. -/
theorem set_filled_divergence :
    (ErasedVec.new tyU32).pad = .ok paddedU32 ∧
    paddedU32.filled = [false] ∧
    (∃ vs, paddedU32.set tyU32 0 [1, 2, 3, 4] = .ok vs ∧ vs.filled = [false] ∧
      vs.len = paddedU32.len ∧ vs.mem 0 = [1, 2, 3, 4] ∧
      ∀ j, j ≠ 0 → vs.mem j = paddedU32.mem j) ∧
    (∃ ve, paddedU32.set_erased 0 tyU32 [1, 2, 3, 4] = .ok ve ∧ ve.filled = [true] ∧
      ve.len = paddedU32.len ∧ ve.mem 0 = [1, 2, 3, 4] ∧
      ∀ j, j ≠ 0 → ve.mem j = paddedU32.mem j) := by
  refine ⟨rfl, rfl, ⟨{ paddedU32 with buf := ⟨tyU32, 2⟩, mem := writeSlot paddedU32.mem 0 [1, 2, 3, 4] }, rfl, rfl, rfl, rfl, ?_⟩,
    ⟨{ paddedU32 with buf := ⟨tyU32, 2⟩, mem := writeSlot paddedU32.mem 0 [1, 2, 3, 4], filled := [true] }, rfl, rfl, rfl, rfl, ?_⟩⟩
  · intro j hj
    simp [writeSlot, hj]
  · intro j hj
    simp [writeSlot, hj]

/-- A one-slot `tyU32` column holding the value `5` at slot 0. -/
def egCol : ErasedVec :=
  { buf := ⟨tyU32, 1⟩, mem := writeSlot (fun _ => []) 0 [5, 0, 0, 0],
    filled := [true], len := 1, dropLog := [] }

/-- A table with `tyU32` registered (bit 0) and one live entity 0 holding
that component. -/
def egTable : EntitiesInner :=
  { components := [(tyU32, egCol)], bitmasks := [(tyU32, 1)], map := [1],
    inserting_into_index := 0 }

/-- Counterexample to claim C5 as stated: on the never-registered type
`tyF64`, both `delete_component` and `delete_component_erased` return
`Ok(())` and leave the table untouched — no registration error value is
surfaced to the caller. -/
theorem delete_unregistered_counterexample :
    egTable.delete_component tyF64 0 = .ok egTable ∧
    egTable.delete_component_erased 0 tyF64 = .ok egTable := ⟨rfl, rfl⟩

/-- Claim C5 (amended): for a type with no bitmask and no column,
`delete_component` and `delete_component_erased` silently succeed as
no-ops, while every other entity-targeted operation — `add_component`,
`with_component`, `has_component`, `has_component_erased`,
`add_component_erased` — surfaces a distinguishable registration error. -/
theorem unregistered_type_errors (e : EntitiesInner) (ty : TypeInfo) (entity : Nat) (b : Bytes)
    (hbm : tmGet e.bitmasks ty = none) (hcm : tmGet e.components ty = none) :
    e.delete_component ty entity = .ok e ∧
    e.delete_component_erased entity ty = .ok e ∧
    e.add_component ty entity b = .error .componentNotRegistered ∧
    e.with_component ty b = .error .createComponentNeverCalled ∧
    e.has_component ty entity = .error .componentNotRegistered ∧
    e.has_component_erased entity ty = .error .componentNotRegistered ∧
    e.add_component_erased entity ty b = .error .componentNotRegistered := by
  refine ⟨?_, ?_, ?_, ?_, ?_, ?_, ?_⟩
  · unfold EntitiesInner.delete_component
    rw [hbm]
  · unfold EntitiesInner.delete_component_erased
    rw [hbm]
  · unfold EntitiesInner.add_component
    rw [hbm]
  · unfold EntitiesInner.with_component
    rw [hcm]
  · unfold EntitiesInner.has_component EntitiesInner.get_bitmask
    rw [hbm]
  · unfold EntitiesInner.has_component_erased EntitiesInner.get_bitmask
    rw [hbm]
  · unfold EntitiesInner.add_component_erased EntitiesInner.has_component_erased
      EntitiesInner.get_bitmask
    rw [hbm]

/-- Witness for the amended C5 on the concrete table: `tyF64` was never
registered there. -/
theorem unregistered_type_errors_witness :
    egTable.delete_component tyF64 0 = .ok egTable ∧
    egTable.delete_component_erased 0 tyF64 = .ok egTable ∧
    egTable.add_component tyF64 0 [] = .error .componentNotRegistered ∧
    egTable.with_component tyF64 [] = .error .createComponentNeverCalled ∧
    egTable.has_component tyF64 0 = .error .componentNotRegistered ∧
    egTable.has_component_erased 0 tyF64 = .error .componentNotRegistered ∧
    egTable.add_component_erased 0 tyF64 [] = .error .componentNotRegistered :=
  unregistered_type_errors egTable tyF64 0 [] rfl rfl

/-! ## Registration order (claim C4) -/

/-- A `TypeMap` lookup misses exactly when no entry's key id matches. -/
theorem tmGet_none_iff {V : Type} (m : TypeMap V) (ty : TypeInfo) :
    tmGet m ty = none ↔ ∀ p ∈ m, p.1.id ≠ ty.id := by
  simp [tmGet, List.find?_eq_none]

/-- Inserting a key that is not present appends the new entry. -/
theorem tmInsert_fresh {V : Type} (m : TypeMap V) (ty : TypeInfo) (v : V)
    (h : tmGet m ty = none) : tmInsert m ty v = m ++ [(ty, v)] := by
  unfold tmInsert
  rw [if_neg]
  have hall := (tmGet_none_iff m ty).mp h
  simp only [List.any_eq_true, not_exists, not_and]
  intro p hp
  simpa using hall p hp

/-- Looking a key up past a prefix that misses it. -/
theorem tmGet_append_of_none {V : Type} (m l : TypeMap V) (ty : TypeInfo)
    (h : tmGet m ty = none) : tmGet (m ++ l) ty = tmGet l ty := by
  have hf : m.find? (fun p => p.1.id == ty.id) = none := by
    unfold tmGet at h
    simpa using h
  unfold tmGet
  rw [List.find?_append, hf]
  rfl

/-- Looking a key up that a prefix already resolves. -/
theorem tmGet_append_of_some {V : Type} (m l : TypeMap V) (ty : TypeInfo) (v : V)
    (h : tmGet m ty = some v) : tmGet (m ++ l) ty = some v := by
  unfold tmGet at h ⊢
  rw [List.find?_append]
  rcases hf : m.find? (fun p => p.1.id == ty.id) with _ | p
  · rw [hf] at h
    simp at h
  · rw [hf] at h
    simp only [Option.map_some', Option.some.injEq] at h
    subst h
    rw [hf]
    rfl

/-- Singleton lookup hit. -/
theorem tmGet_singleton_self {V : Type} (ty : TypeInfo) (v : V) :
    tmGet [(ty, v)] ty = some v := by
  simp [tmGet, List.find?]

/-- Singleton lookup miss. -/
theorem tmGet_singleton_ne {V : Type} (ty ty1 : TypeInfo) (v : V)
    (h : ty.id ≠ ty1.id) : tmGet [(ty, v)] ty1 = none := by
  have hb : (ty.id == ty1.id) = false := by simpa using h
  simp [tmGet, List.find?, hb]

/-- A sequence of `register_component` calls, one per descriptor in
order. -/
def registerAll (e : EntitiesInner) (tys : List TypeInfo) : Except EcsError EntitiesInner :=
  match tys with
  | [] => .ok e
  | ty :: rest =>
    match e.register_component ty with
    | .error err => .error err
    | .ok e1 => registerAll e1 rest

/-- Registration invariant: registering fresh, pairwise-distinct types
appends bitmask entries `1 << k` in order, preserves older entries, and
leaves never-registered types absent. -/
theorem registerAll_spec :
    ∀ (tys : List TypeInfo) (e : EntitiesInner),
      (∀ t ∈ tys, tmGet e.bitmasks t = none) →
      tys.Pairwise (fun a b => a.id ≠ b.id) →
      e.bitmasks.length + tys.length ≤ 128 →
      ∃ e1, registerAll e tys = .ok e1 ∧
        e1.bitmasks.length = e.bitmasks.length + tys.length ∧
        (∀ ty v, tmGet e.bitmasks ty = some v → tmGet e1.bitmasks ty = some v) ∧
        (∀ k, (hk : k < tys.length) →
          tmGet e1.bitmasks (tys.get ⟨k, hk⟩) = some (2 ^ (e.bitmasks.length + k))) ∧
        (∀ ty, tmGet e.bitmasks ty = none → (∀ t ∈ tys, t.id ≠ ty.id) →
          tmGet e1.bitmasks ty = none) := by
  intro tys
  induction tys with
  | nil =>
    intro e _ _ _
    exact ⟨e, rfl, by simp, fun ty v h => h, fun k hk => absurd hk (by simp),
      fun ty h _ => h⟩
  | cons ty rest ih =>
    intro e hfresh hpw hlen
    have hnotfull : ¬ e.bitmasks.length ≥ 128 := by
      simp only [List.length_cons] at hlen
      omega
    have hfty : tmGet e.bitmasks ty = none := hfresh ty (by simp)
    have hreg : e.register_component ty =
        .ok { e with components := tmInsert e.components ty (ErasedVec.new ty),
                     bitmasks := tmInsert e.bitmasks ty (1 <<< e.bitmasks.length) } := by
      unfold EntitiesInner.register_component
      rw [if_neg hnotfull]
    rw [List.pairwise_cons] at hpw
    obtain ⟨hhead, hrestpw⟩ := hpw
    have hb1 : (tmInsert e.bitmasks ty (1 <<< e.bitmasks.length)) =
        e.bitmasks ++ [(ty, 1 <<< e.bitmasks.length)] := tmInsert_fresh _ _ _ hfty
    have hfresh1 : ∀ t ∈ rest,
        tmGet (e.bitmasks ++ [(ty, 1 <<< e.bitmasks.length)]) t = none := by
      intro t ht
      rw [tmGet_append_of_none _ _ _ (hfresh t (by simp [ht]))]
      exact tmGet_singleton_ne _ _ _ (hhead t ht)
    have hlen1 : (e.bitmasks ++ [(ty, 1 <<< e.bitmasks.length)]).length + rest.length ≤ 128 := by
      simp at hlen ⊢
      omega
    obtain ⟨e2, hrun2, hl2, hsome2, hidx2, hnone2⟩ :=
      ih { e with components := tmInsert e.components ty (ErasedVec.new ty),
                  bitmasks := e.bitmasks ++ [(ty, 1 <<< e.bitmasks.length)] }
        hfresh1 hrestpw hlen1
    refine ⟨e2, ?_, ?_, ?_, ?_, ?_⟩
    · unfold registerAll
      rw [hreg, hb1]
      exact hrun2
    · simp only [List.length_cons]
      simp at hl2
      omega
    · intro ty1 v hv
      exact hsome2 ty1 v (tmGet_append_of_some _ _ _ _ hv)
    · intro k hk
      cases k with
      | zero =>
        have hget : tmGet (e.bitmasks ++ [(ty, 1 <<< e.bitmasks.length)]) ty =
            some (1 <<< e.bitmasks.length) := by
          rw [tmGet_append_of_none _ _ _ hfty]
          exact tmGet_singleton_self _ _
        have := hsome2 ty _ hget
        simpa [Nat.shiftLeft_eq] using this
      | succ j =>
        have hj : j < rest.length := by
          simp only [List.length_cons] at hk
          omega
        have := hidx2 j hj
        simp only [List.length_append, List.length_cons, List.length_nil] at this
        have harith : e.bitmasks.length + 1 + j = e.bitmasks.length + (j + 1) := by omega
        rw [harith] at this
        simpa using this
    · intro ty1 hn1 hne1
      refine hnone2 ty1 ?_ (fun t ht => hne1 t (by simp [ht]))
      rw [tmGet_append_of_none _ _ _ hn1]
      exact tmGet_singleton_ne _ _ _ (hne1 ty (by simp))

/-- Claim C4: registering pairwise-distinct types from an empty table
assigns the k-th registered type the bitmask `1 << k` (registration order
equals bit position), `get_bitmask` returns `Some(1 << k)` for it, and
`get_bitmask` of a never-registered type returns `None`. -/
theorem register_bit_order (tys : List TypeInfo)
    (hdist : tys.Pairwise (fun a b => a.id ≠ b.id)) (hlen : tys.length ≤ 128) :
    ∃ e1, registerAll EntitiesInner.mkDefault tys = .ok e1 ∧
      (∀ k, (hk : k < tys.length) → e1.get_bitmask (tys.get ⟨k, hk⟩) = some (2 ^ k)) ∧
      (∀ ty, (∀ t ∈ tys, t.id ≠ ty.id) → e1.get_bitmask ty = none) := by
  obtain ⟨e1, hrun, _, _, hidx, hnone⟩ := registerAll_spec tys EntitiesInner.mkDefault
    (fun t _ => rfl) hdist (by simpa [EntitiesInner.mkDefault] using hlen)
  refine ⟨e1, hrun, ?_, ?_⟩
  · intro k hk
    have := hidx k hk
    simpa [EntitiesInner.get_bitmask, EntitiesInner.mkDefault] using this
  · intro ty hne
    exact hnone ty rfl hne

/-- Witness for C4 on three concrete distinct types: the second
registered type gets bit 1, and a fourth type is absent. -/
theorem register_bit_order_witness :
    ∃ e1, registerAll EntitiesInner.mkDefault [⟨11, 4, 4⟩, ⟨12, 8, 8⟩, ⟨13, 1, 1⟩] = .ok e1 ∧
      e1.get_bitmask ⟨12, 8, 8⟩ = some 2 ∧ e1.get_bitmask ⟨99, 2, 2⟩ = none := by
  obtain ⟨e1, hrun, hidx, hnone⟩ :=
    register_bit_order [⟨11, 4, 4⟩, ⟨12, 8, 8⟩, ⟨13, 1, 1⟩] (by decide) (by decide)
  exact ⟨e1, hrun, hidx 1 (by decide), hnone ⟨99, 2, 2⟩ (by decide)⟩

/-! ## Typed versus erased overwrite (claim C9) -/

/-- The growth prologue succeeds whenever growing succeeds if needed. -/
theorem growIfFull_ok (v : ErasedVec) (hgrow : v.len = v.buf.cap → (v.buf.grow).isOk) :
    ∃ buf, v.growIfFull = .ok buf := by
  unfold ErasedVec.growIfFull
  by_cases h : v.len = v.buf.cap
  · rw [if_pos h]
    rcases hg : v.buf.grow with e | b1
    · rw [hg] at hgrow
      exact absurd (hgrow h) (by simp [Except.isOk, Except.toBool])
    · exact ⟨b1, rfl⟩
  · rw [if_neg h]
    exact ⟨v.buf, rfl⟩

/-- OR-ing a mask whose set bits are already present is the identity. -/
theorem or_eq_self_of_and_eq (a m : Nat) (h : a &&& m = m) : a ||| m = a := by
  apply Nat.eq_of_testBit_eq
  intro i
  have hand : (a.testBit i && m.testBit i) = m.testBit i := by
    rw [← Nat.testBit_and, h]
  rw [Nat.testBit_or]
  cases ha : a.testBit i <;> cases hm : m.testBit i <;> simp_all

/-- Overwriting a list cell with its own current value changes nothing. -/
theorem list_set_getD_self : ∀ (l : List Nat) (i : Nat), l.set i (l.getD i 0) = l := by
  intro l
  induction l with
  | nil => intro i; rfl
  | cons a t ih =>
    intro i
    cases i with
    | zero => rfl
    | succ j => rw [List.getD_cons_succ, List.set_cons_succ, ih j]

/-- After an in-place update through `get_mut`, looking the key up yields
the updated value. -/
theorem tmGet_tmSet_self {V : Type} (m : TypeMap V) (ty : TypeInfo) (v w : V)
    (h : tmGet m ty = some w) : tmGet (tmSet m ty v) ty = some v := by
  induction m with
  | nil => simp [tmGet] at h
  | cons p rest ih =>
    by_cases hp : (p.1.id == ty.id) = true
    · unfold tmGet tmSet
      simp only [List.map_cons, hp, if_pos]
      rw [List.find?_cons_of_pos _ (by simpa using hp)]
      rfl
    · have h1 : tmGet rest ty = some w := by
        unfold tmGet at h
        rw [List.find?_cons_of_neg _ (by simpa using hp)] at h
        exact h
      have h2 := ih h1
      unfold tmGet tmSet at h2 ⊢
      simp only [List.map_cons, hp, Bool.false_eq_true, if_neg, not_false_iff]
      rw [List.find?_cons_of_neg _ (by simpa using hp)]
      exact h2

/-- A `set` whose checks pass overwrites the slot in place: no `filled`
change, no length change, no destructor call, no other slot touched. -/
theorem set_ok_props (v : ErasedVec) (ty : TypeInfo) (index : Nat) (b : Bytes)
    (hty : ty.id = v.ty.id) (hidx : index ≤ v.len)
    (hgrow : v.len = v.buf.cap → (v.buf.grow).isOk) :
    ∃ buf, v.growIfFull = .ok buf ∧
      v.set ty index b = .ok { v with buf, mem := writeSlot v.mem index b } := by
  obtain ⟨buf, hbuf⟩ := growIfFull_ok v hgrow
  refine ⟨buf, hbuf, ?_⟩
  unfold ErasedVec.set ErasedVec.checkInsertTy
  rw [if_pos hty, if_neg (by omega : ¬ index > v.len), hbuf]

/-- A `set_erased` whose checks pass overwrites the slot in place and
marks it filled. -/
theorem set_erased_ok_props (v : ErasedVec) (ty : TypeInfo) (index : Nat) (b : Bytes)
    (hty : ty.id = v.ty.id) (hidx : index ≤ v.len) (hfl : index < v.filled.length)
    (hgrow : v.len = v.buf.cap → (v.buf.grow).isOk) :
    ∃ buf, v.growIfFull = .ok buf ∧
      v.set_erased index ty b = .ok { v with buf, mem := writeSlot v.mem index b,
                                             filled := v.filled.set index true } := by
  obtain ⟨buf, hbuf⟩ := growIfFull_ok v hgrow
  refine ⟨buf, hbuf, ?_⟩
  unfold ErasedVec.set_erased ErasedVec.checkInsertTy
  rw [hbuf]
  have h1 : ¬ index > v.len := by omega
  simp [h1, hty, hfl]

/-- Claim C9: on an entity that already holds a live component of the
type, the typed `add_component` takes the plain overwrite path — it
bit-copies the value over the old one, never invokes the destructor on
the previous value (the drop log is unchanged), moves no other slot, and
leaves the entity's mask word unchanged — whereas `add_component_erased`
tests the presence bit and takes the destructive `reset_erased` path,
invoking the destructor on that slot. -/
theorem add_component_no_drop (e : EntitiesInner) (ty : TypeInfo) (col : ErasedVec)
    (entity : Nat) (b : Bytes) (mask : Nat)
    (hb : tmGet e.bitmasks ty = some mask)
    (hc : tmGet e.components ty = some col)
    (hcolty : ty.id = col.ty.id)
    (hentity : entity < e.map.length)
    (hbit : e.map.getD entity 0 &&& mask = mask) (hmask : mask ≠ 0)
    (hlen : entity ≤ col.len) (hfl : entity < col.filled.length)
    (hgrow : col.len = col.buf.cap → (col.buf.grow).isOk) :
    (∃ e1 col1, e.add_component ty entity b = .ok e1 ∧
      e1.map = e.map ∧
      tmGet e1.components ty = some col1 ∧
      col1.dropLog = col.dropLog ∧
      col1.mem entity = b ∧
      (∀ j, j ≠ entity → col1.mem j = col.mem j) ∧
      col1.len = col.len ∧ col1.filled = col.filled) ∧
    (∃ e2 col2, e.add_component_erased entity ty b = .ok e2 ∧
      e2.map = e.map ∧
      tmGet e2.components ty = some col2 ∧
      col2.dropLog = col.dropLog ++ [entity]) := by
  have hor : e.map.getD entity 0 ||| mask = e.map.getD entity 0 :=
    or_eq_self_of_and_eq _ _ hbit
  have hmapset : e.map.set entity (e.map.getD entity 0 ||| mask) = e.map := by
    rw [hor]
    exact list_set_getD_self e.map entity
  constructor
  · obtain ⟨buf, hbuf, hset⟩ := set_ok_props col ty entity b hcolty hlen hgrow
    refine ⟨{ e with map := e.map.set entity (e.map.getD entity 0 ||| mask), components := tmSet e.components ty { col with buf, mem := writeSlot col.mem entity b } }, { col with buf, mem := writeSlot col.mem entity b }, ?_, ?_, ?_, rfl, ?_, ?_, rfl, rfl⟩
    · unfold EntitiesInner.add_component
      simp [hb, hentity, hc, hset]
    · simpa using hmapset
    · exact tmGet_tmSet_self _ _ _ _ hc
    · simp [writeSlot]
    · intro j hj
      simp [writeSlot, hj]
  · have hhas : (decide (e.map.getD entity 0 &&& mask ≠ 0)) = true := by
      rw [decide_eq_true_eq, hbit]
      exact hmask
    have hclear : col.clear entity = .ok { col with dropLog := col.dropLog ++ [entity] } := by
      unfold ErasedVec.clear
      rw [if_neg (by omega : ¬ entity > col.len)]
    obtain ⟨buf, hbuf, hset⟩ := set_erased_ok_props
      { col with dropLog := col.dropLog ++ [entity] } ty entity b hcolty hlen hfl hgrow
    have hreset : col.reset_erased entity ty b = .ok { col with buf, mem := writeSlot col.mem entity b, filled := col.filled.set entity true, dropLog := col.dropLog ++ [entity] } := by
      unfold ErasedVec.reset_erased
      simp only [hclear]
      rw [hset]
    have hhase : e.has_component_erased entity ty =
        .ok (decide (e.map.getD entity 0 &&& mask ≠ 0)) := by
      unfold EntitiesInner.has_component_erased EntitiesInner.get_bitmask
      simp [hb, hentity]
    refine ⟨{ e with map := e.map.set entity (e.map.getD entity 0 ||| mask), components := tmSet e.components ty { col with buf, mem := writeSlot col.mem entity b, filled := col.filled.set entity true, dropLog := col.dropLog ++ [entity] } }, { col with buf, mem := writeSlot col.mem entity b, filled := col.filled.set entity true, dropLog := col.dropLog ++ [entity] }, ?_, ?_, ?_, rfl⟩
    · unfold EntitiesInner.add_component_erased
      rw [hhase]
      simp [hhas, hc, hreset, hb, hentity]
      rw [if_neg (show ¬ (e.map[entity] &&& mask = 0) from by rw [← List.getD_eq_getElem e.map 0 hentity, hbit]; exact hmask)]
    · simpa using hmapset
    · exact tmGet_tmSet_self _ _ _ _ hc

/-- Witness for C9: adding a fresh `u32` value to entity 0 of the
concrete table, which already holds one, overwrites in place with an
empty drop log; the erased path logs the destructor call. -/
theorem add_component_no_drop_witness :
    (∃ e1 col1, egTable.add_component tyU32 0 [9, 9, 9, 9] = .ok e1 ∧
      e1.map = egTable.map ∧ tmGet e1.components tyU32 = some col1 ∧
      col1.dropLog = egCol.dropLog ∧ col1.mem 0 = [9, 9, 9, 9]) ∧
    (∃ e2 col2, egTable.add_component_erased 0 tyU32 [9, 9, 9, 9] = .ok e2 ∧
      tmGet e2.components tyU32 = some col2 ∧ col2.dropLog = egCol.dropLog ++ [0]) := by
  obtain ⟨⟨e1, col1, hrun, hmap, hget, hdrop, hmem, _, _, _⟩, e2, col2, hrun2, _, hget2, hdrop2⟩ :=
    add_component_no_drop egTable tyU32 egCol 0 [9, 9, 9, 9] 1 rfl rfl rfl
      (by decide) (by decide) (by decide) (by decide) (by decide) (fun _ => by decide)
  exact ⟨⟨e1, col1, hrun, hmap, hget, hdrop, hmem⟩, e2, col2, hrun2, hget2, hdrop2⟩

/-! ## The packed staging buffer (claim C10) -/

/-- The maximum of a projection over a descriptor list, folded from 0. -/
def foldMax (f : TypeInfo → Nat) (l : List TypeInfo) : Nat :=
  l.foldl (fun m x => Nat.max m (f x)) 0

/-- The `max_by` fold started from `some a` yields an element whose
projection is the running maximum. -/
theorem maxByProj_go (f : TypeInfo → Nat) :
    ∀ (l : List TypeInfo) (a : TypeInfo),
      ∃ t, List.foldl (fun acc x =>
          match acc with
          | none => some x
          | some u => if f u > f x then some u else some x) (some a) l = some t ∧
        f t = List.foldl (fun m x => Nat.max m (f x)) (f a) l ∧ (t = a ∨ t ∈ l) := by
  intro l
  induction l with
  | nil => intro a; exact ⟨a, rfl, rfl, Or.inl rfl⟩
  | cons x xs ih =>
    intro a
    obtain ⟨t, hfold, hmax, hmem⟩ := ih (if f a > f x then a else x)
    have hstep : (if f a > f x then some a else some x) = some (if f a > f x then a else x) := by
      by_cases hc : f a > f x <;> simp [hc]
    have hval : f (if f a > f x then a else x) = Nat.max (f a) (f x) := by
      by_cases hc : f a > f x
      · rw [if_pos hc]
        exact (Nat.max_eq_left (by omega)).symm
      · rw [if_neg hc]
        exact (Nat.max_eq_right (by omega)).symm
    refine ⟨t, ?_, ?_, ?_⟩
    · rw [List.foldl_cons]
      simp only [hstep]
      exact hfold
    · rw [List.foldl_cons, ← hval]
      exact hmax
    · rcases hmem with rfl | h
      · by_cases hc : f a > f x
        · simp [hc]
        · simp [hc]
      · exact Or.inr (by simp [h])

/-- For a nonempty descriptor list, `max_by` under a projection returns
an element of the list attaining the maximum projection. -/
theorem maxByProj_spec (f : TypeInfo → Nat) (l : List TypeInfo) (hne : l ≠ []) :
    ∃ t, maxByProj f l = some t ∧ t ∈ l ∧ f t = foldMax f l := by
  cases l with
  | nil => exact absurd rfl hne
  | cons x xs =>
    obtain ⟨t, hfold, hmax, hmem⟩ := maxByProj_go f xs x
    refine ⟨t, ?_, ?_, ?_⟩
    · unfold maxByProj
      rw [List.foldl_cons]
      exact hfold
    · rcases hmem with rfl | h
      · simp
      · simp [h]
    · unfold foldMax
      have h0 : Nat.max 0 (f x) = f x := Nat.max_eq_right (Nat.zero_le _)
      simpa [h0] using hmax

/-- Claim C10: constructing the packed staging buffer from the empty
bundle (arity 0) panics — the maximum element size and alignment are
taken from an empty descriptor list (`max_by(..).unwrap()`); for every
bundle of arity at least 1 whose layout is representable, construction
succeeds with the slot stride (`field_size`) equal to the largest element
size. -/
theorem noDropTuple_new_spec :
    (NoDropTuple.new [] = .error .unwrapPanic) ∧
    (∀ tys : List TypeInfo, tys ≠ [] →
      (∀ t ∈ tys, isPow2 t.align = true) →
      foldMax (fun t => t.size) tys * tys.length ≤
        ISIZE_MAX - (foldMax (fun t => t.align) tys - 1) →
      ∃ nt, NoDropTuple.new tys = .ok nt ∧
        nt.field_size = foldMax (fun t => t.size) tys ∧ nt.len = tys.length) := by
  refine ⟨rfl, ?_⟩
  intro tys hne hpow hsz
  obtain ⟨tmax, hsfold, hsmem, hsval⟩ := maxByProj_spec (fun t => t.size) tys hne
  obtain ⟨amax, hafold, hamem, haval⟩ := maxByProj_spec (fun t => t.align) tys hne
  have hcond : isPow2 amax.align = true ∧
      tmax.size * tys.length ≤ ISIZE_MAX - (amax.align - 1) := by
    refine ⟨hpow amax hamem, ?_⟩
    rw [hsval, haval]
    exact hsz
  refine ⟨⟨tys, tmax.size, tys.length, tmax.size * tys.length, amax.align⟩, ?_, hsval, rfl⟩
  unfold NoDropTuple.new
  simp only [maxBySize, maxByAlign, hsfold, hafold]
  unfold layoutFromSizeAlign
  rw [if_pos hcond]

/-- Witness for C10: a two-element bundle of a 4-byte and an 8-byte type
packs with slot stride 8. -/
theorem noDropTuple_new_witness :
    ∃ nt, NoDropTuple.new [⟨1, 4, 4⟩, ⟨2, 8, 8⟩] = .ok nt ∧
      nt.field_size = 8 ∧ nt.len = 2 := by
  obtain ⟨nt, hok, hfs, hlen⟩ := noDropTuple_new_spec.2 [⟨1, 4, 4⟩, ⟨2, 8, 8⟩]
    (by decide) (by decide) (by decide)
  exact ⟨nt, hok, hfs.trans (by decide), hlen⟩

end Nina
